import Mathlib

/-!
Verification development for the options strategy simulator (`app.py`).

The core of the program is four pure computations over a spot-price grid:
an input validator, two payoff engines (Bull Call Spread, Iron Condor),
a breakeven finder based on sign changes and linear interpolation, and a
summary reducer taking the max/min of the payoff vector.  Python floats
are modelled by rationals (ℚ); numpy arrays by lists of rationals, with
the vectorized numpy operations translated elementwise.
-/

namespace OptionsSim

/-- Embedding of `validate_inputs`'s strike-order check: the code tests
`all(strikes[i] <= strikes[i+1] for i in range(len(strikes)-1))`. -/
def ascending_pairs : List ℚ → Bool
  | a :: b :: rest => decide (a ≤ b) && ascending_pairs (b :: rest)
  | _ => true

/-- Embedding of `validate_inputs` from `app.py`.  The Streamlit
`st.error` reporting is a display side effect with no influence on the
returned value; the embedding is the pure boolean result (the Python
function also never mutates its argument lists). -/
def validate_inputs (premiums strikes : List ℚ) : Bool :=
  if premiums.any (fun premium => decide (premium ≤ 0)) then false
  else if decide (1 < strikes.length) && ! ascending_pairs strikes then false
  else true

/-- Payoff of the Bull Call Spread at a single spot price, exactly as
`calculate_bull_call_spread_payoff` computes it elementwise:
`(max(S - buy_call_strike, 0) - buy_call_premium
  + sell_call_premium - max(S - sell_call_strike, 0)) * lot_size`. -/
def bull_call_spread_point (buy_call_strike buy_call_premium
    sell_call_strike sell_call_premium lot_size S : ℚ) : ℚ :=
  let buy_call_payoff := max (S - buy_call_strike) 0 - buy_call_premium
  let sell_call_payoff := sell_call_premium - max (S - sell_call_strike) 0
  (buy_call_payoff + sell_call_payoff) * lot_size

/-- Embedding of `calculate_bull_call_spread_payoff`: the numpy
expressions act elementwise on the spot-price array. -/
def calculate_bull_call_spread_payoff (spot_prices : List ℚ)
    (buy_call_strike buy_call_premium sell_call_strike sell_call_premium
     lot_size : ℚ) : List ℚ :=
  spot_prices.map (bull_call_spread_point buy_call_strike buy_call_premium
    sell_call_strike sell_call_premium lot_size)

/-- Payoff of the Iron Condor at a single spot price, exactly as
`calculate_iron_condor_payoff` computes it elementwise. -/
def iron_condor_point (buy_put_strike buy_put_premium sell_put_strike
    sell_put_premium sell_call_strike sell_call_premium buy_call_strike
    buy_call_premium lot_size S : ℚ) : ℚ :=
  let buy_put_payoff := max (buy_put_strike - S) 0 - buy_put_premium
  let sell_put_payoff := sell_put_premium - max (sell_put_strike - S) 0
  let put_spread_payoff := buy_put_payoff + sell_put_payoff
  let buy_call_payoff := max (S - buy_call_strike) 0 - buy_call_premium
  let sell_call_payoff := sell_call_premium - max (S - sell_call_strike) 0
  let call_spread_payoff := buy_call_payoff + sell_call_payoff
  (put_spread_payoff + call_spread_payoff) * lot_size

/-- Embedding of `calculate_iron_condor_payoff`. -/
def calculate_iron_condor_payoff (spot_prices : List ℚ)
    (buy_put_strike buy_put_premium sell_put_strike sell_put_premium
     sell_call_strike sell_call_premium buy_call_strike buy_call_premium
     lot_size : ℚ) : List ℚ :=
  spot_prices.map (iron_condor_point buy_put_strike buy_put_premium
    sell_put_strike sell_put_premium sell_call_strike sell_call_premium
    buy_call_strike buy_call_premium lot_size)

/-- Python's `round(x, 2)`: round to two decimal places. -/
def round2 (q : ℚ) : ℚ := ((round (q * 100) : ℤ) : ℚ) / 100

/-- The interpolated crossing price computed inside
`find_breakeven_points` for one segment:
`breakeven_price = spot_prices[i] + ratio * (spot_prices[i+1] -
spot_prices[i])` with `ratio = abs(payoff[i]) / abs(payoff[i+1] -
payoff[i])`. -/
def breakeven_interp (p0 p1 s0 s1 : ℚ) : ℚ :=
  s0 + |p0| / |p1 - p0| * (s1 - s0)

/-- The scan loop of `find_breakeven_points`: for each adjacent index
pair, when the sign-change test fires and the slope magnitude exceeds
the tolerance, append the rounded interpolated crossing price. -/
def breakeven_scan (tolerance : ℚ) : List ℚ → List ℚ → List ℚ
  | p0 :: p1 :: ps, s0 :: s1 :: ss =>
    if (p0 ≤ 0 ∧ 0 ≤ p1) ∨ (0 ≤ p0 ∧ p1 ≤ 0) then
      if tolerance < |p1 - p0| then
        round2 (breakeven_interp p0 p1 s0 s1) ::
          breakeven_scan tolerance (p1 :: ps) (s1 :: ss)
      else breakeven_scan tolerance (p1 :: ps) (s1 :: ss)
    else breakeven_scan tolerance (p1 :: ps) (s1 :: ss)
  | _, _ => []

/-- Instrumented variant of the scan: it performs the same computation
but returns `none` if the interpolation division
`abs(payoff[i]) / abs(payoff[i+1] - payoff[i])` would ever be evaluated
with a zero divisor. -/
def breakeven_scan_div_safe (tolerance : ℚ) :
    List ℚ → List ℚ → Option (List ℚ)
  | p0 :: p1 :: ps, s0 :: s1 :: ss =>
    match breakeven_scan_div_safe tolerance (p1 :: ps) (s1 :: ss) with
    | none => none
    | some rest =>
      if (p0 ≤ 0 ∧ 0 ≤ p1) ∨ (0 ≤ p0 ∧ p1 ≤ 0) then
        if tolerance < |p1 - p0| then
          if |p1 - p0| = 0 then none
          else some (round2 (breakeven_interp p0 p1 s0 s1) :: rest)
        else some rest
      else some rest
  | _, _ => some []

/-- Embedding of `find_breakeven_points`: the scan followed by
`list(set(...))`, which removes duplicates (modelled by `dedup`; the
set's iteration order is not part of the contract). -/
def find_breakeven_points (payoff spot_prices : List ℚ)
    (tolerance : ℚ := 1 / 100) : List ℚ :=
  (breakeven_scan tolerance payoff spot_prices).dedup

/-- `np.max` on a (possibly empty) vector, as a fold with `max`. -/
def np_max : List ℚ → Option ℚ
  | [] => none
  | a :: as => some (as.foldl max a)

/-- `np.min` on a (possibly empty) vector, as a fold with `min`. -/
def np_min : List ℚ → Option ℚ
  | [] => none
  | a :: as => some (as.foldl min a)

/-- The computational core of `display_summary`:
`max_profit = np.max(payoff)` and `max_loss = np.min(payoff)`. -/
def summarize (payoff : List ℚ) : Option (ℚ × ℚ) :=
  match np_max payoff, np_min payoff with
  | some max_profit, some max_loss => some (max_profit, max_loss)
  | _, _ => none

/-- `ascending_pairs` decides exactly the chain of adjacent `≤`. -/
lemma ascending_pairs_iff_chain (l : List ℚ) :
    ascending_pairs l = true ↔ List.Chain' (· ≤ ·) l := by
  induction l with
  | nil => simp [ascending_pairs]
  | cons a l ih =>
    cases l with
    | nil => simp [ascending_pairs]
    | cons b t =>
      rw [List.chain'_cons, ← ih]
      simp [ascending_pairs]

/-- C1: for every spot price in the grid and all Bull Call Spread
inputs, the output vector has the grid's length and its `i`-th entry is
`(max(S - buyCallStrike, 0) - buyCallPremium + sellCallPremium
  - max(S - sellCallStrike, 0)) * lotSize` where `S` is the `i`-th spot
price — elementwise, each output point depending only on the
corresponding input spot price. -/
theorem bull_call_spread_elementwise (spot_prices : List ℚ)
    (buy_call_strike buy_call_premium sell_call_strike sell_call_premium
     lot_size : ℚ) :
    (calculate_bull_call_spread_payoff spot_prices buy_call_strike
      buy_call_premium sell_call_strike sell_call_premium
      lot_size).length = spot_prices.length ∧
    ∀ i : ℕ,
      (calculate_bull_call_spread_payoff spot_prices buy_call_strike
        buy_call_premium sell_call_strike sell_call_premium lot_size)[i]? =
      (spot_prices[i]?).map (fun S =>
        (max (S - buy_call_strike) 0 - buy_call_premium + sell_call_premium
          - max (S - sell_call_strike) 0) * lot_size) := by
  constructor
  · simp [calculate_bull_call_spread_payoff]
  · intro i
    rw [calculate_bull_call_spread_payoff, List.getElem?_map]
    cases spot_prices[i]? with
    | none => rfl
    | some S =>
      show some _ = some _
      rw [bull_call_spread_point]
      ring_nf

/-- C3: `validate_inputs` returns `false` exactly when some premium is
nonpositive, or the strike list has more than one element and some
adjacent pair is strictly decreasing; it returns `true` in all other
cases.  (The embedding is a pure function on lists, matching the fact
that the Python code never mutates its inputs.) -/
theorem validate_inputs_spec (premiums strikes : List ℚ) :
    validate_inputs premiums strikes = false ↔
      (∃ p ∈ premiums, p ≤ 0) ∨
      (1 < strikes.length ∧ ∃ i : ℕ, ∃ h : i + 1 < strikes.length,
        strikes.get ⟨i + 1, h⟩ < strikes.get ⟨i, Nat.lt_of_succ_lt h⟩) := by
  have hchain : ascending_pairs strikes = true ↔
      ∀ (i : ℕ) (h : i < strikes.length - 1),
        strikes.get ⟨i, by omega⟩ ≤ strikes.get ⟨i + 1, by omega⟩ :=
    (ascending_pairs_iff_chain strikes).trans List.chain'_iff_get
  cases hA : premiums.any (fun premium => decide (premium ≤ 0)) with
  | true =>
    simp only [validate_inputs, hA, if_true]
    constructor
    · intro _
      left
      simpa using hA
    · intro _
      trivial
  | false =>
    have hprem : ¬ ∃ p ∈ premiums, p ≤ 0 := by
      simpa using hA
    cases hB : decide (1 < strikes.length) && ! ascending_pairs strikes with
    | true =>
      simp only [validate_inputs, hA, Bool.false_eq_true, if_false, hB,
        if_true]
      constructor
      · intro _
        right
        rw [Bool.and_eq_true, decide_eq_true_iff, Bool.not_eq_eq_eq_not,
          Bool.not_true] at hB
        obtain ⟨hlen, hasc⟩ := hB
        refine ⟨hlen, ?_⟩
        by_contra hno
        push_neg at hno
        have : ascending_pairs strikes = true := by
          rw [hchain]
          intro i h
          rcases le_or_lt (strikes.get ⟨i, by omega⟩)
              (strikes.get ⟨i + 1, by omega⟩) with hle | hlt
          · exact hle
          · exact absurd hlt (by simpa using hno i (by omega))
        rw [this] at hasc
        cases hasc
      · intro _
        trivial
    | false =>
      simp only [validate_inputs, hA, Bool.false_eq_true, if_false, hB]
      constructor
      · intro h
        simp at h
      · rintro (hbad | ⟨hlen, i, h, hdec⟩)
        · exact absurd hbad hprem
        · exfalso
          simp only [Bool.and_eq_false_iff, decide_eq_false_iff_not,
            Bool.not_eq_false'] at hB
          rcases hB with hB | hB
          · exact hB hlen
          · rw [hchain] at hB
            exact absurd (hB i (by omega)) (not_le.mpr hdec)

/-- C5: for a validated Bull Call Spread parameter set (the app checks
`buy_call_strike ≤ sell_call_strike` before computing; lot size is a
positive integer) with net debit `buy_call_premium - sell_call_premium`
positive, the payoff at every spot price lies between
`-netDebit * lotSize` and `(sellCallStrike - buyCallStrike - netDebit)
* lotSize`. -/
theorem bull_call_spread_bounds (buy_call_strike buy_call_premium
    sell_call_strike sell_call_premium lot_size S : ℚ)
    (horder : buy_call_strike ≤ sell_call_strike)
    (hdebit : 0 < buy_call_premium - sell_call_premium)
    (hlot : 0 ≤ lot_size) :
    -(buy_call_premium - sell_call_premium) * lot_size ≤
      bull_call_spread_point buy_call_strike buy_call_premium
        sell_call_strike sell_call_premium lot_size S ∧
    bull_call_spread_point buy_call_strike buy_call_premium
        sell_call_strike sell_call_premium lot_size S ≤
      (sell_call_strike - buy_call_strike -
        (buy_call_premium - sell_call_premium)) * lot_size := by
  rw [bull_call_spread_point]
  have hmono : max (S - sell_call_strike) 0 ≤ max (S - buy_call_strike) 0 :=
    max_le_max (by linarith) le_rfl
  have hwidth : max (S - buy_call_strike) 0 - max (S - sell_call_strike) 0 ≤
      sell_call_strike - buy_call_strike := by
    rcases le_or_lt S sell_call_strike with hS | hS
    · have h1 : max (S - buy_call_strike) 0 ≤
          sell_call_strike - buy_call_strike :=
        max_le (by linarith) (by linarith)
      have h2 : 0 ≤ max (S - sell_call_strike) 0 := le_max_right _ _
      linarith
    · have h1 : max (S - buy_call_strike) 0 = S - buy_call_strike :=
        max_eq_left (by linarith)
      have h2 : max (S - sell_call_strike) 0 = S - sell_call_strike :=
        max_eq_left (by linarith)
      rw [h1, h2]
      ring_nf
      linarith
  constructor
  · have hinner : -(buy_call_premium - sell_call_premium) ≤
        max (S - buy_call_strike) 0 - buy_call_premium +
          (sell_call_premium - max (S - sell_call_strike) 0) := by
      linarith
    calc -(buy_call_premium - sell_call_premium) * lot_size
        ≤ (max (S - buy_call_strike) 0 - buy_call_premium +
            (sell_call_premium - max (S - sell_call_strike) 0)) * lot_size :=
          mul_le_mul_of_nonneg_right hinner hlot
      _ = _ := rfl
  · exact mul_le_mul_of_nonneg_right (by linarith) hlot

/-- Witness for `bull_call_spread_bounds` at the spec's scenario values
(strikes 100 and 110, premiums 5 and 2, lot size 1) and spot price 0. -/
theorem bull_call_spread_bounds_witness :
    -((5 : ℚ) - 2) * 1 ≤ bull_call_spread_point 100 5 110 2 1 0 ∧
    bull_call_spread_point 100 5 110 2 1 0 ≤ (110 - 100 - (5 - 2)) * 1 :=
  bull_call_spread_bounds 100 5 110 2 1 0 (by norm_num) (by norm_num)
    (by norm_num)

/-- C2: with strikes ordered `buyPut ≤ sellPut ≤ sellCall ≤ buyCall` and
a nonnegative lot size, the Iron Condor payoff at every spot price
strictly between `sellPutStrike` and `sellCallStrike` equals
`(sellPutPremium - buyPutPremium + sellCallPremium - buyCallPremium) *
lotSize`, and the payoff at every spot price (in particular at every
grid point) is at most that constant. -/
theorem iron_condor_flat_top (buy_put_strike buy_put_premium
    sell_put_strike sell_put_premium sell_call_strike sell_call_premium
    buy_call_strike buy_call_premium lot_size : ℚ)
    (h1 : buy_put_strike ≤ sell_put_strike)
    (h2 : sell_put_strike ≤ sell_call_strike)
    (h3 : sell_call_strike ≤ buy_call_strike)
    (hlot : 0 ≤ lot_size) :
    (∀ S : ℚ, sell_put_strike < S → S < sell_call_strike →
      iron_condor_point buy_put_strike buy_put_premium sell_put_strike
        sell_put_premium sell_call_strike sell_call_premium
        buy_call_strike buy_call_premium lot_size S =
      (sell_put_premium - buy_put_premium + sell_call_premium -
        buy_call_premium) * lot_size) ∧
    (∀ S : ℚ,
      iron_condor_point buy_put_strike buy_put_premium sell_put_strike
        sell_put_premium sell_call_strike sell_call_premium
        buy_call_strike buy_call_premium lot_size S ≤
      (sell_put_premium - buy_put_premium + sell_call_premium -
        buy_call_premium) * lot_size) := by
  constructor
  · intro S hlo hhi
    rw [iron_condor_point]
    have e1 : max (buy_put_strike - S) 0 = 0 := max_eq_right (by linarith)
    have e2 : max (sell_put_strike - S) 0 = 0 := max_eq_right (by linarith)
    have e3 : max (S - sell_call_strike) 0 = 0 := max_eq_right (by linarith)
    have e4 : max (S - buy_call_strike) 0 = 0 := max_eq_right (by linarith)
    rw [e1, e2, e3, e4]
    ring
  · intro S
    rw [iron_condor_point]
    have hput : max (buy_put_strike - S) 0 ≤ max (sell_put_strike - S) 0 :=
      max_le_max (by linarith) le_rfl
    have hcall : max (S - buy_call_strike) 0 ≤ max (S - sell_call_strike) 0 :=
      max_le_max (by linarith) le_rfl
    exact mul_le_mul_of_nonneg_right (by linarith) hlot

/-- Witness for `iron_condor_flat_top` at the spec's scenario values:
strikes 90/100/110/120, premiums 2/5/5/2, lot size 1, with the flat-top
equality taken at spot price 105 and the bound at spot price 50. -/
theorem iron_condor_flat_top_witness :
    iron_condor_point 90 2 100 5 110 5 120 2 1 105 =
      ((5 : ℚ) - 2 + 5 - 2) * 1 ∧
    iron_condor_point 90 2 100 5 110 5 120 2 1 50 ≤
      ((5 : ℚ) - 2 + 5 - 2) * 1 := by
  obtain ⟨heq, hle⟩ := iron_condor_flat_top 90 2 100 5 110 5 120 2 1
    (by norm_num) (by norm_num) (by norm_num) (by norm_num)
  exact ⟨heq 105 (by norm_num) (by norm_num), hle 50⟩

/-- Folding `max` over a list starting from `a` lands in `a :: l`. -/
lemma foldl_max_mem : ∀ (l : List ℚ) (a : ℚ), l.foldl max a ∈ a :: l := by
  intro l
  induction l with
  | nil => intro a; simp
  | cons b l ih =>
    intro a
    rcases List.mem_cons.mp (ih (max a b)) with h | h
    · rcases max_choice a b with hc | hc
      · exact List.mem_cons.mpr (Or.inl (h.trans hc))
      · exact List.mem_cons.mpr
          (Or.inr (List.mem_cons.mpr (Or.inl (h.trans hc))))
    · exact List.mem_cons.mpr (Or.inr (List.mem_cons.mpr (Or.inr h)))

/-- Folding `max` over a list starting from `a` bounds `a :: l` above. -/
lemma le_foldl_max : ∀ (l : List ℚ) (a x : ℚ), x ∈ a :: l →
    x ≤ l.foldl max a := by
  intro l
  induction l with
  | nil =>
    intro a x hx
    rw [List.mem_singleton] at hx
    simp [hx]
  | cons b l ih =>
    intro a x hx
    rcases List.mem_cons.mp hx with hx | hx
    · calc x = a := hx
        _ ≤ max a b := le_max_left _ _
        _ ≤ List.foldl max (max a b) l := ih _ _ (List.mem_cons_self _ _)

    · rcases List.mem_cons.mp hx with hx | hx
      · calc x = b := hx
          _ ≤ max a b := le_max_right _ _
          _ ≤ List.foldl max (max a b) l := ih _ _ (List.mem_cons_self _ _)
      · exact ih _ _ (List.mem_cons_of_mem _ hx)

/-- Folding `min` over a list starting from `a` lands in `a :: l`. -/
lemma foldl_min_mem : ∀ (l : List ℚ) (a : ℚ), l.foldl min a ∈ a :: l := by
  intro l
  induction l with
  | nil => intro a; simp
  | cons b l ih =>
    intro a
    rcases List.mem_cons.mp (ih (min a b)) with h | h
    · rcases min_choice a b with hc | hc
      · exact List.mem_cons.mpr (Or.inl (h.trans hc))
      · exact List.mem_cons.mpr
          (Or.inr (List.mem_cons.mpr (Or.inl (h.trans hc))))
    · exact List.mem_cons.mpr (Or.inr (List.mem_cons.mpr (Or.inr h)))

/-- Folding `min` over a list starting from `a` bounds `a :: l` below. -/
lemma foldl_min_le : ∀ (l : List ℚ) (a x : ℚ), x ∈ a :: l →
    l.foldl min a ≤ x := by
  intro l
  induction l with
  | nil =>
    intro a x hx
    rw [List.mem_singleton] at hx
    simp [hx]
  | cons b l ih =>
    intro a x hx
    rcases List.mem_cons.mp hx with hx | hx
    · calc List.foldl min (min a b) l ≤ min a b :=
            ih _ _ (List.mem_cons_self _ _)
        _ ≤ a := min_le_left _ _
        _ = x := hx.symm
    · rcases List.mem_cons.mp hx with hx | hx
      · calc List.foldl min (min a b) l ≤ min a b :=
              ih _ _ (List.mem_cons_self _ _)
          _ ≤ b := min_le_right _ _
          _ = x := hx.symm
      · exact ih _ _ (List.mem_cons_of_mem _ hx)

/-- C8: on every non-empty payoff vector, `summarize` succeeds and
returns `maxProfit` equal to the maximum element of the vector and
`maxLoss` equal to the minimum element (as computed by
`np.max`/`np.min` in `display_summary`). -/
theorem summarize_max_min (a : ℚ) (as : List ℚ) :
    ∃ max_profit max_loss : ℚ,
      summarize (a :: as) = some (max_profit, max_loss) ∧
      max_profit ∈ a :: as ∧ (∀ x ∈ a :: as, x ≤ max_profit) ∧
      max_loss ∈ a :: as ∧ (∀ x ∈ a :: as, max_loss ≤ x) := by
  refine ⟨as.foldl max a, as.foldl min a, rfl, foldl_max_mem as a,
    fun x hx => le_foldl_max as a x hx, foldl_min_mem as a,
    fun x hx => foldl_min_le as a x hx⟩

/-- Defining equation of the scan on lists with at least two elements
on each side. -/
lemma breakeven_scan_cons_cons (tolerance p0 p1 s0 s1 : ℚ)
    (ps ss : List ℚ) :
    breakeven_scan tolerance (p0 :: p1 :: ps) (s0 :: s1 :: ss) =
      if (p0 ≤ 0 ∧ 0 ≤ p1) ∨ (0 ≤ p0 ∧ p1 ≤ 0) then
        if tolerance < |p1 - p0| then
          round2 (breakeven_interp p0 p1 s0 s1) ::
            breakeven_scan tolerance (p1 :: ps) (s1 :: ss)
        else breakeven_scan tolerance (p1 :: ps) (s1 :: ss)
      else breakeven_scan tolerance (p1 :: ps) (s1 :: ss) := by
  rw [breakeven_scan]

/-- Two values of the same strict sign never fire the sign-change test
of `find_breakeven_points`. -/
lemma no_sign_change_of_same_sign {p0 p1 : ℚ}
    (h : (0 < p0 ∧ 0 < p1) ∨ (p0 < 0 ∧ p1 < 0)) :
    ¬ ((p0 ≤ 0 ∧ 0 ≤ p1) ∨ (0 ≤ p0 ∧ p1 ≤ 0)) := by
  rcases h with ⟨h0, h1⟩ | ⟨h0, h1⟩ <;>
    rintro (⟨ha, hb⟩ | ⟨ha, hb⟩) <;> linarith

/-- A payoff list whose entries all share one strict sign produces an
empty scan. -/
lemma breakeven_scan_same_sign (tolerance : ℚ) :
    ∀ (payoff spots : List ℚ),
      ((∀ x ∈ payoff, 0 < x) ∨ (∀ x ∈ payoff, x < 0)) →
      breakeven_scan tolerance payoff spots = [] := by
  intro payoff
  induction payoff with
  | nil => intro spots _; rfl
  | cons p0 tail ih =>
    cases tail with
    | nil => intro spots _; cases spots with | nil => rfl | cons _ _ => rfl
    | cons p1 ps =>
      intro spots hsign
      cases spots with
      | nil => rfl
      | cons s0 ss =>
        cases ss with
        | nil => rfl
        | cons s1 ss2 =>
          rw [breakeven_scan_cons_cons, if_neg, ih (s1 :: ss2)]
          · rcases hsign with h | h
            · exact Or.inl (fun x hx => h x (List.mem_cons_of_mem _ hx))
            · exact Or.inr (fun x hx => h x (List.mem_cons_of_mem _ hx))
          · rcases hsign with h | h
            · exact no_sign_change_of_same_sign
                (Or.inl ⟨h p0 (by simp), h p1 (by simp)⟩)
            · exact no_sign_change_of_same_sign
                (Or.inr ⟨h p0 (by simp), h p1 (by simp)⟩)

/-- C4 counterexample: the payoff vector `[0, 1]` is entirely
non-negative, yet `find_breakeven_points` (default tolerance) on the
grid `[0, 1]` returns the non-empty set `{0}`: the sign-change test
`payoff[i] <= 0 and payoff[i+1] >= 0` fires on the zero entry, the
slope `1` exceeds the tolerance, and a breakeven at spot price `0` is
recorded. -/
theorem find_breakeven_points_nonneg_cex :
    (∀ x ∈ ([0, 1] : List ℚ), 0 ≤ x) ∧
    find_breakeven_points [0, 1] [0, 1] = [0] ∧
    find_breakeven_points [0, 1] [0, 1] ≠ [] := by
  have hval : find_breakeven_points [0, 1] [0, 1] = [0] := by
    rw [find_breakeven_points, breakeven_scan_cons_cons,
      if_pos (Or.inl ⟨le_refl (0 : ℚ), by norm_num⟩), if_pos (by norm_num)]
    have h1 : breakeven_scan (1 / 100) [1] [1] = [] := rfl
    have h2 : round2 (breakeven_interp 0 1 0 1) = 0 := by
      norm_num [breakeven_interp, round2]
    rw [h1, h2]
    rfl
  refine ⟨by decide, hval, ?_⟩
  rw [hval]
  simp

/-- C4 as amended: a payoff vector that is entirely strictly positive,
or entirely strictly negative, yields no breakeven points (a zero entry
can trigger the sign-change test, so mere non-negativity is not
enough). -/
theorem find_breakeven_points_same_sign (tolerance : ℚ)
    (payoff spots : List ℚ)
    (h : (∀ x ∈ payoff, 0 < x) ∨ (∀ x ∈ payoff, x < 0)) :
    find_breakeven_points payoff spots tolerance = [] := by
  rw [find_breakeven_points, breakeven_scan_same_sign tolerance payoff spots h]
  rfl

/-- Witness for `find_breakeven_points_same_sign`: an always-profitable
payoff vector over a two-point grid has no breakevens. -/
theorem find_breakeven_points_same_sign_witness :
    find_breakeven_points [1, 2] [5, 6] (1 / 100) = [] :=
  find_breakeven_points_same_sign (1 / 100) [1, 2] [5, 6]
    (Or.inl (by decide))

/-- With a nonnegative tolerance, the instrumented scan never hits a
zero divisor and agrees with the plain scan. -/
lemma breakeven_scan_div_safe_eq (tolerance : ℚ) (htol : 0 ≤ tolerance) :
    ∀ payoff spots : List ℚ,
      breakeven_scan_div_safe tolerance payoff spots =
        some (breakeven_scan tolerance payoff spots) := by
  intro payoff
  induction payoff with
  | nil => intro spots; cases spots with | nil => rfl | cons _ _ => rfl
  | cons p0 tail ih =>
    cases tail with
    | nil => intro spots; cases spots with | nil => rfl | cons _ _ => rfl
    | cons p1 ps =>
      intro spots
      cases spots with
      | nil => rfl
      | cons s0 ss =>
        cases ss with
        | nil => rfl
        | cons s1 ss2 =>
          rw [breakeven_scan_div_safe, ih (s1 :: ss2),
            breakeven_scan_cons_cons]
          split_ifs with h1 h2 h3
          · rw [h3] at h2
            linarith
          · rfl
          · rfl
          · rfl

/-- A sign-change segment whose slope magnitude is at most the
tolerance contributes nothing to the scan. -/
lemma breakeven_scan_flat_skip (tolerance p0 p1 s0 s1 : ℚ)
    (ps ss : List ℚ)
    (hflat : |p1 - p0| ≤ tolerance) :
    breakeven_scan tolerance (p0 :: p1 :: ps) (s0 :: s1 :: ss) =
      breakeven_scan tolerance (p1 :: ps) (s1 :: ss) := by
  rw [breakeven_scan_cons_cons]
  split_ifs with h1 h2
  · exact absurd h2 (not_lt.mpr hflat)
  · rfl
  · rfl

/-- C6: with the default tolerance `0.01`, the interpolation division
in `find_breakeven_points` is guarded by `|payoff[i+1] - payoff[i]| >
tolerance`, so it never divides by zero (the instrumented scan, which
fails on a zero divisor, always succeeds and agrees with the real
scan); and a segment where a sign change is detected but the slope
magnitude is at most the tolerance records no breakeven. -/
theorem find_breakeven_points_division_guard :
    (∀ payoff spots : List ℚ,
      breakeven_scan_div_safe (1 / 100) payoff spots =
        some (breakeven_scan (1 / 100) payoff spots)) ∧
    (∀ (p0 p1 s0 s1 : ℚ) (ps ss : List ℚ),
      ((p0 ≤ 0 ∧ 0 ≤ p1) ∨ (0 ≤ p0 ∧ p1 ≤ 0)) →
      |p1 - p0| ≤ 1 / 100 →
      breakeven_scan (1 / 100) (p0 :: p1 :: ps) (s0 :: s1 :: ss) =
        breakeven_scan (1 / 100) (p1 :: ps) (s1 :: ss)) := by
  constructor
  · exact breakeven_scan_div_safe_eq (1 / 100) (by norm_num)
  · intro p0 p1 s0 s1 ps ss _ hflat
    exact breakeven_scan_flat_skip (1 / 100) p0 p1 s0 s1 ps ss hflat

/-- Witness for `find_breakeven_points_division_guard`: the instrumented
scan succeeds on the vector `[0, 1]`, and a near-flat sign-change
segment (`0` to `1/200`) records nothing. -/
theorem find_breakeven_points_division_guard_witness :
    breakeven_scan_div_safe (1 / 100) [0, 1] [0, 1] =
      some (breakeven_scan (1 / 100) [0, 1] [0, 1]) ∧
    breakeven_scan (1 / 100) [0, 1 / 200] [0, 1] =
      breakeven_scan (1 / 100) [1 / 200] [1] := by
  obtain ⟨h1, h2⟩ := find_breakeven_points_division_guard
  refine ⟨h1 [0, 1] [0, 1], h2 0 (1 / 200) 0 1 [] []
    (Or.inl ⟨le_refl 0, by norm_num⟩) ?_⟩
  rw [show |(1 : ℚ) / 200 - 0| = 1 / 200 from by
    rw [sub_zero]
    exact abs_of_nonneg (by norm_num)]
  norm_num

/-- Rounding to two decimal places moves a rational by at most
`1/200 = 0.005`. -/
lemma round2_close (q : ℚ) : |round2 q - q| ≤ 1 / 200 := by
  rw [round2]
  have heq : ((round (q * 100) : ℤ) : ℚ) / 100 - q =
      -((q * 100 - ((round (q * 100) : ℤ) : ℚ)) / 100) := by ring
  rw [heq, abs_neg, abs_div]
  have h100 : |(100 : ℚ)| = 100 := abs_of_nonneg (by norm_num)
  rw [h100]
  linarith [abs_sub_round (q * 100)]

/-- C9: both payoff engines are homogeneous in lot size — for every
positive integer `k`, the payoff vector computed with lot size `k` is
exactly `k` times the payoff vector computed with lot size `1`,
pointwise, for the Bull Call Spread and the Iron Condor alike. -/
theorem payoff_lot_linearity (spot_prices : List ℚ)
    (buy_call_strike buy_call_premium sell_call_strike sell_call_premium
     buy_put_strike buy_put_premium sell_put_strike sell_put_premium
     ic_sell_call_strike ic_sell_call_premium ic_buy_call_strike
     ic_buy_call_premium : ℚ) (k : ℕ) (hk : 0 < k) :
    calculate_bull_call_spread_payoff spot_prices buy_call_strike
        buy_call_premium sell_call_strike sell_call_premium (k : ℚ) =
      (calculate_bull_call_spread_payoff spot_prices buy_call_strike
        buy_call_premium sell_call_strike sell_call_premium 1).map
        (fun v => (k : ℚ) * v) ∧
    calculate_iron_condor_payoff spot_prices buy_put_strike
        buy_put_premium sell_put_strike sell_put_premium
        ic_sell_call_strike ic_sell_call_premium ic_buy_call_strike
        ic_buy_call_premium (k : ℚ) =
      (calculate_iron_condor_payoff spot_prices buy_put_strike
        buy_put_premium sell_put_strike sell_put_premium
        ic_sell_call_strike ic_sell_call_premium ic_buy_call_strike
        ic_buy_call_premium 1).map (fun v => (k : ℚ) * v) := by
  constructor
  · rw [calculate_bull_call_spread_payoff,
      calculate_bull_call_spread_payoff, List.map_map]
    have hfun : bull_call_spread_point buy_call_strike buy_call_premium
        sell_call_strike sell_call_premium (k : ℚ) =
        (fun v => (k : ℚ) * v) ∘ bull_call_spread_point buy_call_strike
          buy_call_premium sell_call_strike sell_call_premium 1 := by
      funext S
      simp only [bull_call_spread_point, Function.comp]
      ring
    rw [hfun]
  · rw [calculate_iron_condor_payoff, calculate_iron_condor_payoff,
      List.map_map]
    have hfun : iron_condor_point buy_put_strike buy_put_premium
        sell_put_strike sell_put_premium ic_sell_call_strike
        ic_sell_call_premium ic_buy_call_strike ic_buy_call_premium
        (k : ℚ) =
        (fun v => (k : ℚ) * v) ∘ iron_condor_point buy_put_strike
          buy_put_premium sell_put_strike sell_put_premium
          ic_sell_call_strike ic_sell_call_premium ic_buy_call_strike
          ic_buy_call_premium 1 := by
      funext S
      simp only [iron_condor_point, Function.comp]
      ring
    rw [hfun]

/-- Witness for `payoff_lot_linearity` on a two-point grid with the
spec's scenario parameters and `k = 2`. -/
theorem payoff_lot_linearity_witness :
    calculate_bull_call_spread_payoff [0, 200] 100 5 110 2 ((2 : ℕ) : ℚ) =
      (calculate_bull_call_spread_payoff [0, 200] 100 5 110 2 1).map
        (fun v => ((2 : ℕ) : ℚ) * v) ∧
    calculate_iron_condor_payoff [0, 200] 90 2 100 5 110 5 120 2
        ((2 : ℕ) : ℚ) =
      (calculate_iron_condor_payoff [0, 200] 90 2 100 5 110 5 120 2 1).map
        (fun v => ((2 : ℕ) : ℚ) * v) :=
  payoff_lot_linearity [0, 200] 100 5 110 2 90 2 100 5 110 5 120 2 2
    (by norm_num)

/-- C10: on a segment where the sign-change test fires and the
tolerance guard passes, with adjacent spot prices in non-decreasing
order, the interpolation fraction `|payoff[i]| / |payoff[i+1] -
payoff[i]|` lies in `[0, 1]`, so the breakeven value computed before
rounding lies in the closed segment `[spotPrices[i], spotPrices[i+1]]`
(hence within the grid's overall range). -/
theorem interpolation_in_segment (tolerance a b s t : ℚ)
    (hsign : (a ≤ 0 ∧ 0 ≤ b) ∨ (0 ≤ a ∧ b ≤ 0))
    (hs : s ≤ t) (htol : 0 ≤ tolerance) (hguard : tolerance < |b - a|) :
    (0 ≤ |a| / |b - a| ∧ |a| / |b - a| ≤ 1) ∧
    s ≤ breakeven_interp a b s t ∧ breakeven_interp a b s t ≤ t := by
  rw [breakeven_interp]
  have hd : 0 < |b - a| := lt_of_le_of_lt htol hguard
  have hnum : |a| ≤ |b - a| := by
    rcases hsign with ⟨ha, hb⟩ | ⟨ha, hb⟩
    · rw [abs_of_nonpos ha, abs_of_nonneg (by linarith : (0 : ℚ) ≤ b - a)]
      linarith
    · rw [abs_of_nonneg ha, abs_of_nonpos (by linarith : b - a ≤ 0)]
      linarith
  have hr0 : 0 ≤ |a| / |b - a| := div_nonneg (abs_nonneg a) (le_of_lt hd)
  have hr1 : |a| / |b - a| ≤ 1 := (div_le_one hd).mpr hnum
  refine ⟨⟨hr0, hr1⟩, ?_, ?_⟩
  · nlinarith [mul_nonneg hr0 (by linarith : (0 : ℚ) ≤ t - s)]
  · nlinarith [mul_nonneg (by linarith : (0 : ℚ) ≤ 1 - |a| / |b - a|)
      (by linarith : (0 : ℚ) ≤ t - s)]

/-- Witness for `interpolation_in_segment` on the segment with payoff
values `-1, 1` and spot prices `0, 1` at the default tolerance. -/
theorem interpolation_in_segment_witness :
    (0 ≤ |(-1 : ℚ)| / |1 - (-1)| ∧ |(-1 : ℚ)| / |1 - (-1)| ≤ 1) ∧
    (0 : ℚ) ≤ breakeven_interp (-1) 1 0 1 ∧
    breakeven_interp (-1) 1 0 1 ≤ 1 := by
  refine interpolation_in_segment (1 / 100) (-1) 1 0 1
    (Or.inl ⟨by norm_num, by norm_num⟩) (by norm_num) (by norm_num) ?_
  rw [show |(1 : ℚ) - (-1)| = 2 from by
    rw [abs_of_nonneg (by norm_num : (0 : ℚ) ≤ 1 - (-1))]
    norm_num]
  norm_num

/-- A prefix whose entries (together with the next value `x`) all share
one strict sign contributes nothing to the scan: the scan of the whole
list equals the scan starting at `x`. -/
lemma breakeven_scan_skip_same_sign_head (tolerance x s : ℚ)
    (tail tailS : List ℚ) :
    ∀ xs ss : List ℚ, xs.length = ss.length →
      ((∀ a ∈ xs ++ [x], a < 0) ∨ (∀ a ∈ xs ++ [x], 0 < a)) →
      breakeven_scan tolerance (xs ++ x :: tail) (ss ++ s :: tailS) =
        breakeven_scan tolerance (x :: tail) (s :: tailS) := by
  intro xs
  induction xs with
  | nil =>
    intro ss hlen _
    cases ss with
    | nil => rfl
    | cons _ _ => simp at hlen
  | cons a xs2 ih =>
    intro ss hlen hsign
    cases ss with
    | nil => simp at hlen
    | cons b ss2 =>
      have hlen2 : xs2.length = ss2.length := by simpa using hlen
      have hsign2 : (∀ u ∈ xs2 ++ [x], u < 0) ∨ (∀ u ∈ xs2 ++ [x], 0 < u) := by
        rcases hsign with h | h
        · exact Or.inl fun u hu => h u (by simp at hu ⊢; tauto)
        · exact Or.inr fun u hu => h u (by simp at hu ⊢; tauto)
      cases xs2 with
      | nil =>
        cases ss2 with
        | nil =>
          show breakeven_scan tolerance (a :: x :: tail)
              (b :: s :: tailS) = _
          rw [breakeven_scan_cons_cons, if_neg]
          rcases hsign with h | h
          · exact no_sign_change_of_same_sign
              (Or.inr ⟨h a (by simp), h x (by simp)⟩)
          · exact no_sign_change_of_same_sign
              (Or.inl ⟨h a (by simp), h x (by simp)⟩)
        | cons _ _ => simp at hlen2
      | cons c xs3 =>
        cases ss2 with
        | nil => simp at hlen2
        | cons d ss3 =>
          show breakeven_scan tolerance
              (a :: c :: (xs3 ++ x :: tail))
              (b :: d :: (ss3 ++ s :: tailS)) = _
          rw [breakeven_scan_cons_cons, if_neg]
          · exact ih (d :: ss3) hlen2 hsign2
          · rcases hsign with h | h
            · exact no_sign_change_of_same_sign
                (Or.inr ⟨h a (by simp), h c (by simp)⟩)
            · exact no_sign_change_of_same_sign
                (Or.inl ⟨h a (by simp), h c (by simp)⟩)

/-- C7: on a payoff vector that crosses zero exactly once, strictly
between adjacent grid points (all entries up to index `i` of one strict
sign, all entries from index `i+1` of the opposite strict sign), with
slope magnitude above the default tolerance, `find_breakeven_points`
returns exactly one value, and that value is within the tolerance of
the exact linear-interpolation root
`spotPrices[i] + (|payoff[i]| / |payoff[i+1] - payoff[i]|) *
(spotPrices[i+1] - spotPrices[i])`. -/
theorem find_breakeven_points_single_cross
    (xs ys ss ts : List ℚ) (x y s t : ℚ)
    (hlen1 : xs.length = ss.length) (hlen2 : ys.length = ts.length)
    (hsign : ((∀ a ∈ xs ++ [x], a < 0) ∧ (∀ b ∈ y :: ys, 0 < b)) ∨
             ((∀ a ∈ xs ++ [x], 0 < a) ∧ (∀ b ∈ y :: ys, b < 0)))
    (hslope : 1 / 100 < |y - x|) :
    find_breakeven_points (xs ++ x :: y :: ys) (ss ++ s :: t :: ts) =
      [round2 (breakeven_interp x y s t)] ∧
    |round2 (breakeven_interp x y s t) - breakeven_interp x y s t| ≤
      1 / 100 := by
  have hcond : (x ≤ 0 ∧ 0 ≤ y) ∨ (0 ≤ x ∧ y ≤ 0) := by
    rcases hsign with ⟨hx, hy⟩ | ⟨hx, hy⟩
    · exact Or.inl ⟨le_of_lt (hx x (by simp)), le_of_lt (hy y (by simp))⟩
    · exact Or.inr ⟨le_of_lt (hx x (by simp)), le_of_lt (hy y (by simp))⟩
  have hscan : breakeven_scan (1 / 100) (xs ++ x :: y :: ys)
      (ss ++ s :: t :: ts) = [round2 (breakeven_interp x y s t)] := by
    rw [breakeven_scan_skip_same_sign_head (1 / 100) x s (y :: ys)
      (t :: ts) xs ss hlen1
      (by rcases hsign with ⟨hx, _⟩ | ⟨hx, _⟩
          · exact Or.inl hx
          · exact Or.inr hx),
      breakeven_scan_cons_cons, if_pos hcond, if_pos hslope,
      breakeven_scan_same_sign (1 / 100) (y :: ys) (t :: ts)
      (by rcases hsign with ⟨_, hy⟩ | ⟨_, hy⟩
          · exact Or.inl hy
          · exact Or.inr hy)]
  constructor
  · rw [find_breakeven_points, hscan]
    rfl
  · linarith [round2_close (breakeven_interp x y s t),
      abs_nonneg (round2 (breakeven_interp x y s t) -
        breakeven_interp x y s t)]

/-- Witness for `find_breakeven_points_single_cross`: the vector
`[-1, 1]` over the grid `[0, 1]` yields the single breakeven
`round2(1/2)`, within tolerance of the exact root `1/2`. -/
theorem find_breakeven_points_single_cross_witness :
    find_breakeven_points [-1, 1] [0, 1] =
      [round2 (breakeven_interp (-1) 1 0 1)] ∧
    |round2 (breakeven_interp (-1) 1 0 1) - breakeven_interp (-1) 1 0 1| ≤
      1 / 100 := by
  refine find_breakeven_points_single_cross [] [] [] [] (-1) 1 0 1 rfl rfl
    (Or.inl ⟨?_, ?_⟩) ?_
  · intro a ha
    simp at ha
    simp [ha]
  · intro b hb
    simp at hb
    simp [hb]
  · rw [show |(1 : ℚ) - (-1)| = 2 from by
      rw [abs_of_nonneg (by norm_num : (0 : ℚ) ≤ 1 - (-1))]
      norm_num]
    norm_num

end OptionsSim
